import Mathlib

/- Verification development for the recommendation scoring core of the
   product-recommendation-system repository (src/gnn_infer.py, src/quanta.py,
   src/recommender.py).

   Numeric code is embedded over ℚ.  The source computes L2 norms with a
   square root, which has no exact rational value; wherever a function of the
   source divides by `norm(v) + eps`, the embedded function takes the norm as
   an explicit argument `n`, and the theorems constrain it by `0 ≤ n` and
   `n * n = normSq v`, which pins `n` to the unique nonnegative square root. -/

namespace RecSys

/-- Squared L2 norm of a vector, `sum(v_i^2)` (the square of
`np.linalg.norm(v)` in the source). -/
def normSq (x : List ℚ) : ℚ := (x.map (fun v => v * v)).sum

/-- One row of `_normalize_rows` (gnn_infer.py lines 28-30):
`X / (np.linalg.norm(X, axis=1) + 1e-8)` applied to a single row `x`
whose L2 norm is `n`. -/
def normalize_row (x : List ℚ) (n : ℚ) : List ℚ :=
  x.map (fun v => v / (n + 1 / 10 ^ 8))

lemma normSq_map_div (x : List ℚ) (c : ℚ) :
    normSq (x.map (fun v => v / c)) = normSq x / (c * c) := by
  induction x with
  | nil => simp [normSq]
  | cons a t ih =>
      simp only [normSq, List.map_cons, List.map_map, List.sum_cons] at ih ⊢
      rw [ih]
      rw [div_mul_div_comm, add_div]

lemma normSq_nonneg (x : List ℚ) : 0 ≤ normSq x := by
  induction x with
  | nil => simp [normSq]
  | cons a t ih =>
      simp only [normSq, List.map_cons, List.sum_cons] at ih ⊢
      have ha : 0 ≤ a * a := mul_self_nonneg a
      linarith

/- -------------------- quanta.py : _safe_norm -------------------- -/

/-- `np.nanmin` over a nonempty rational list (no NaNs in the ℚ model);
`0` for the empty list, which the source returns before taking the min. -/
def listMin : List ℚ → ℚ
  | [] => 0
  | a :: t => t.foldl min a

/-- `np.nanmax` over a nonempty rational list; `0` for the empty list. -/
def listMax : List ℚ → ℚ
  | [] => 0
  | a :: t => t.foldl max a

/-- `_safe_norm` (quanta.py lines 7-13): min-max normalization with a
zero-variance guard.  Empty input is returned unchanged; if
`max - min < 1e-9` the result is all zeros; otherwise each entry is
`(x - lo) / (hi - lo + 1e-12)`. -/
def safe_norm (x : List ℚ) : List ℚ :=
  if x = [] then x
  else if listMax x - listMin x < 1 / 10 ^ 9 then x.map (fun _ => 0)
  else x.map (fun v => (v - listMin x) / (listMax x - listMin x + 1 / 10 ^ 12))

lemma foldl_min_le_init (l : List ℚ) (a : ℚ) : l.foldl min a ≤ a := by
  induction l generalizing a with
  | nil => simp
  | cons b t ih =>
      simp only [List.foldl_cons]
      exact le_trans (ih (min a b)) (min_le_left a b)

lemma foldl_min_le_mem (l : List ℚ) (a : ℚ) : ∀ v ∈ l, l.foldl min a ≤ v := by
  induction l generalizing a with
  | nil => intro v hv; simp at hv
  | cons b t ih =>
      intro v hv
      rcases List.mem_cons.mp hv with h | h
      · subst h
        simp only [List.foldl_cons]
        exact le_trans (foldl_min_le_init t (min a v)) (min_le_right a v)
      · exact ih (min a b) v h

lemma init_le_foldl_max (l : List ℚ) (a : ℚ) : a ≤ l.foldl max a := by
  induction l generalizing a with
  | nil => simp
  | cons b t ih =>
      simp only [List.foldl_cons]
      exact le_trans (le_max_left a b) (ih (max a b))

lemma mem_le_foldl_max (l : List ℚ) (a : ℚ) : ∀ v ∈ l, v ≤ l.foldl max a := by
  induction l generalizing a with
  | nil => intro v hv; simp at hv
  | cons b t ih =>
      intro v hv
      rcases List.mem_cons.mp hv with h | h
      · subst h
        simp only [List.foldl_cons]
        exact le_trans (le_max_right a v) (init_le_foldl_max t (max a v))
      · exact ih (max a b) v h

lemma listMin_le_mem (x : List ℚ) : ∀ v ∈ x, listMin x ≤ v := by
  cases x with
  | nil => intro v hv; simp at hv
  | cons a t =>
      intro v hv
      rcases List.mem_cons.mp hv with h | h
      · subst h; exact foldl_min_le_init t v
      · exact foldl_min_le_mem t a v h

lemma mem_le_listMax (x : List ℚ) : ∀ v ∈ x, v ≤ listMax x := by
  cases x with
  | nil => intro v hv; simp at hv
  | cons a t =>
      intro v hv
      rcases List.mem_cons.mp hv with h | h
      · subst h; exact init_le_foldl_max t v
      · exact mem_le_foldl_max t a v h

/-- C9: in Quanta score normalization, a component with zero variance
across the candidate set (max minus min below the `1e-9` tolerance)
min-max-normalizes to the all-zero vector, and every normalized value lies
in `[0, 1]` (the `1e-12`-padded denominator is strictly positive, which is
the NaN/Inf guard of the float code). -/
theorem c9_safe_norm (x : List ℚ) :
    (listMax x - listMin x < 1 / 10 ^ 9 → safe_norm x = x.map (fun _ => 0)) ∧
      (∀ y ∈ safe_norm x, 0 ≤ y ∧ y ≤ 1) := by
  constructor
  · intro hvar
    by_cases hx : x = []
    · subst hx; rfl
    · unfold safe_norm
      rw [if_neg hx, if_pos hvar]
  · intro y hy
    by_cases hx : x = []
    · subst hx
      have he : safe_norm ([] : List ℚ) = [] := rfl
      rw [he] at hy
      simp at hy
    · by_cases hvar : listMax x - listMin x < 1 / 10 ^ 9
      · unfold safe_norm at hy
        rw [if_neg hx, if_pos hvar] at hy
        simp only [List.mem_map] at hy
        obtain ⟨v, hv, rfl⟩ := hy
        norm_num
      · simp only [safe_norm, if_neg hx, if_neg hvar, List.mem_map] at hy
        obtain ⟨v, hv, rfl⟩ := hy
        have hlo : listMin x ≤ v := listMin_le_mem x v hv
        have hhi : v ≤ listMax x := mem_le_listMax x v hv
        have hgap : (1 : ℚ) / 10 ^ 9 ≤ listMax x - listMin x := le_of_not_lt hvar
        have hden : 0 < listMax x - listMin x + 1 / 10 ^ 12 := by
          have : (0 : ℚ) < 1 / 10 ^ 9 := by norm_num
          have h12 : (0 : ℚ) < 1 / 10 ^ 12 := by norm_num
          linarith
        constructor
        · exact div_nonneg (by linarith) (le_of_lt hden)
        · rw [div_le_one hden]
          linarith

/-- Witness for C9 at a concrete zero-variance input. -/
theorem c9_safe_norm_witness : safe_norm [(5 : ℚ), 5] = [0, 0] := by
  have h := (c9_safe_norm [(5 : ℚ), 5]).1 (by norm_num [listMax, listMin])
  simpa using h

/- -------------------- gnn_infer.py : row normalization -------------------- -/

lemma normSq_div_le_one (x : List ℚ) (n c : ℚ) (hn : 0 ≤ n) (hc : 0 < c)
    (hsq : n * n = normSq x) :
    normSq (x.map (fun v => v / (n + c))) ≤ 1 := by
  rw [normSq_map_div, ← hsq]
  have hpos : 0 < (n + c) * (n + c) := mul_pos (by linarith) (by linarith)
  rw [div_le_one hpos]
  have h1 : n ≤ n + c := by linarith
  exact mul_le_mul h1 h1 hn (by linarith)

/-- C10: each row returned by the embedding provider is divided by its L2
norm plus `1e-8` (gnn_infer.py line 125 via `_normalize_rows`), so its
squared norm is at most 1, and for a non-degenerate row (pre-normalization
norm at least 1) its norm is within `1e-8` of 1, i.e. its squared norm is at
least `(1 - 1e-8)^2`. -/
theorem c10_row_normalized (x : List ℚ) (n : ℚ) (hn : 0 ≤ n)
    (hsq : n * n = normSq x) :
    normSq (normalize_row x n) ≤ 1 ∧
      (1 ≤ n → (1 - 1 / 10 ^ 8) ^ 2 ≤ normSq (normalize_row x n)) := by
  constructor
  · exact normSq_div_le_one x n (1 / 10 ^ 8) hn (by norm_num) hsq
  · intro h1
    have hden : (0 : ℚ) < n + 1 / 10 ^ 8 := by
      have : (0 : ℚ) < 1 / 10 ^ 8 := by norm_num
      linarith
    rw [normalize_row, normSq_map_div, ← hsq]
    have key : (1 - 1 / 10 ^ 8) * (n + 1 / 10 ^ 8) ≤ n := by nlinarith
    have hfrac : (1 - 1 / 10 ^ 8) ≤ n / (n + 1 / 10 ^ 8) :=
      (le_div_iff₀ hden).mpr key
    have hfrac0 : (0 : ℚ) ≤ 1 - 1 / 10 ^ 8 := by norm_num
    have := mul_le_mul hfrac hfrac hfrac0 (div_nonneg (by linarith) (le_of_lt hden))
    calc (1 - 1 / 10 ^ 8) ^ 2 = (1 - 1 / 10 ^ 8) * (1 - 1 / 10 ^ 8) := by ring
    _ ≤ (n / (n + 1 / 10 ^ 8)) * (n / (n + 1 / 10 ^ 8)) := this
    _ = n * n / ((n + 1 / 10 ^ 8) * (n + 1 / 10 ^ 8)) := by
        rw [div_mul_div_comm]

/-- Witness for C10 at the row `[3, 4]`, whose norm is exactly 5. -/
theorem c10_row_normalized_witness :
    normSq (normalize_row [(3 : ℚ), 4] 5) ≤ 1 ∧
      ((1 : ℚ) ≤ 5 → (1 - 1 / 10 ^ 8) ^ 2 ≤ normSq (normalize_row [(3 : ℚ), 4] 5)) :=
  c10_row_normalized [(3 : ℚ), 4] 5 (by norm_num) (by norm_num [normSq])

/- -------------------- gnn_infer.py : crowd boosting -------------------- -/

/-- An entry of the global/crowd event log.  `recommend_items` reads only
`item_id` and `action` from each record; `user_id` is carried so that the
spec's "neighbor" notion (another user sharing a liked item with the current
user) can be stated.  A record whose `item_id` key is missing or falsy is
modelled by the empty string. -/
structure CrowdEvent where
  user_id : String
  item_id : String
  action : String
deriving DecidableEq

/-- `2.0 if r.get("action") == "like" else 1.0` (gnn_infer.py line 170). -/
def eventWeight (e : CrowdEvent) : ℚ :=
  if e.action = "like" then 2 else 1

/-- The popularity counter `pop[k]` built at gnn_infer.py lines 166-170:
the sum of event weights over crowd records whose (non-empty) item id is
`k`; `0` when `k` is not a key of the dict. -/
def popCount (crowd : List CrowdEvent) (k : String) : ℚ :=
  (crowd.map (fun e => if e.item_id = k ∧ e.item_id ≠ "" then eventWeight e else 0)).sum

/-- The item ids that become keys of `pop` (each one per contributing
event; duplicates are harmless below since they only feed a `max`). -/
def validIds (crowd : List CrowdEvent) : List String :=
  (crowd.filter (fun e => e.item_id != "")).map (fun e => e.item_id)

/-- `maxp = max(pop.values()) if pop else 1.0` (gnn_infer.py line 171).
Every stored value is at least 1 (weights are 1 or 2 per event), so folding
`max` from 1 over the key occurrences computes the same number. -/
def maxPop (crowd : List CrowdEvent) : ℚ :=
  (validIds crowd).foldl (fun m i => max m (popCount crowd i)) 1

/-- The additive crowd term for catalog item `iid`
(gnn_infer.py lines 172-174): `0.15 * pop[iid] / maxp` when `iid in pop`,
otherwise no addition. -/
def crowdBoost (crowd : List CrowdEvent) (iid : String) : ℚ :=
  if iid ∈ validIds crowd then 3 / 20 * (popCount crowd iid / maxPop crowd) else 0

/-- The final score of a catalog item with base cosine score `base` in
`recommend_items` (gnn_infer.py lines 162-174): the crowd boost is applied
only when the crowd list is truthy (non-empty) and `force_content` is off.
The base cosine score abstracts `_cosine_scores(user_vec, E)[i]`, which is
held constant in the claims about this function. -/
def recommendScore (base : ℚ) (crowd : List CrowdEvent) (forceContent : Bool)
    (iid : String) : ℚ :=
  if crowd ≠ [] ∧ forceContent = false then base + crowdBoost crowd iid else base

/-- The liked/bagged item ids of user `u` in an event log (used only to
state the spec's neighbor notion). -/
def likesOf (events : List CrowdEvent) (u : String) : List String :=
  events.filterMap (fun e =>
    if e.user_id = u ∧ (e.action = "like" ∨ e.action = "bag") then some e.item_id else none)

/-- Spec notion: `u` is a neighbor of the current user iff `u` has a
liked/bagged event on some item the current user liked/bagged. -/
def isNeighbor (userLikes : List String) (events : List CrowdEvent) (u : String) : Bool :=
  (likesOf events u).any (fun i => userLikes.contains i)

lemma popCount_nonneg (crowd : List CrowdEvent) (k : String) :
    0 ≤ popCount crowd k := by
  apply List.sum_nonneg
  intro q hq
  simp only [List.mem_map] at hq
  obtain ⟨e, _, rfl⟩ := hq
  by_cases h : e.item_id = k ∧ e.item_id ≠ ""
  · rw [if_pos h]
    unfold eventWeight
    by_cases ha : e.action = "like"
    · rw [if_pos ha]; norm_num
    · rw [if_neg ha]; norm_num
  · rw [if_neg h]

lemma foldl_max_f_init (f : String → ℚ) (l : List String) (a : ℚ) :
    a ≤ l.foldl (fun m i => max m (f i)) a := by
  induction l generalizing a with
  | nil => simp
  | cons b t ih =>
      simp only [List.foldl_cons]
      exact le_trans (le_max_left a (f b)) (ih (max a (f b)))

lemma foldl_max_f_mem (f : String → ℚ) (l : List String) (a : ℚ) :
    ∀ i ∈ l, f i ≤ l.foldl (fun m i => max m (f i)) a := by
  induction l generalizing a with
  | nil => intro i hi; simp at hi
  | cons b t ih =>
      intro i hi
      rcases List.mem_cons.mp hi with h | h
      · subst h
        simp only [List.foldl_cons]
        exact le_trans (le_max_right a (f i)) (foldl_max_f_init f t (max a (f i)))
      · exact ih (max a (f b)) i h

lemma foldl_max_f_le (f : String → ℚ) (l : List String) (a b : ℚ)
    (ha : a ≤ b) (h : ∀ i ∈ l, f i ≤ b) :
    l.foldl (fun m i => max m (f i)) a ≤ b := by
  induction l generalizing a with
  | nil => simpa using ha
  | cons c t ih =>
      simp only [List.foldl_cons]
      apply ih (max a (f c))
      · exact max_le ha (h c (List.mem_cons_self c t))
      · intro i hi
        exact h i (List.mem_cons_of_mem c hi)

lemma one_le_maxPop (crowd : List CrowdEvent) : 1 ≤ maxPop crowd :=
  foldl_max_f_init (popCount crowd) (validIds crowd) 1

lemma popCount_le_maxPop (crowd : List CrowdEvent) (k : String)
    (hk : k ∈ validIds crowd) : popCount crowd k ≤ maxPop crowd :=
  foldl_max_f_mem (popCount crowd) (validIds crowd) 1 k hk

lemma maxPop_le (crowd : List CrowdEvent) (B : ℚ) (hB : 1 ≤ B)
    (h : ∀ i ∈ validIds crowd, popCount crowd i ≤ B) : maxPop crowd ≤ B :=
  foldl_max_f_le (popCount crowd) (validIds crowd) 1 B hB h

lemma popCount_append (c1 c2 : List CrowdEvent) (k : String) :
    popCount (c1 ++ c2) k = popCount c1 k + popCount c2 k := by
  unfold popCount
  rw [List.map_append, List.sum_append]

lemma validIds_append (c1 c2 : List CrowdEvent) :
    validIds (c1 ++ c2) = validIds c1 ++ validIds c2 := by
  unfold validIds
  rw [List.filter_append, List.map_append]

lemma popCount_all_like (extra : List CrowdEvent) (X : String) (hX : X ≠ "")
    (hextra : ∀ e ∈ extra, e.item_id = X ∧ e.action = "like") :
    popCount extra X = 2 * extra.length := by
  induction extra with
  | nil => simp [popCount]
  | cons e t ih =>
      have he := hextra e (List.mem_cons_self e t)
      have ht : ∀ e' ∈ t, e'.item_id = X ∧ e'.action = "like" := by
        intro e' h'; exact hextra e' (List.mem_cons_of_mem e h')
      unfold popCount at ih ⊢
      simp only [List.map_cons, List.sum_cons]
      rw [ih ht, if_pos ⟨he.1, by rw [he.1]; exact hX⟩]
      unfold eventWeight
      rw [if_pos he.2, List.length_cons]
      push_cast
      ring

lemma popCount_all_like_other (extra : List CrowdEvent) (X y : String) (hy : y ≠ X)
    (hextra : ∀ e ∈ extra, e.item_id = X ∧ e.action = "like") :
    popCount extra y = 0 := by
  induction extra with
  | nil => simp [popCount]
  | cons e t ih =>
      have he := hextra e (List.mem_cons_self e t)
      have ht : ∀ e' ∈ t, e'.item_id = X ∧ e'.action = "like" := by
        intro e' h'; exact hextra e' (List.mem_cons_of_mem e h')
      unfold popCount at ih ⊢
      simp only [List.map_cons, List.sum_cons]
      rw [ih ht, if_neg]
      · ring
      · intro hc
        exact hy (hc.1 ▸ he.1 ▸ rfl)

lemma mem_validIds_all_like (extra : List CrowdEvent) (X : String) (hX : X ≠ "")
    (hne : extra ≠ [])
    (hextra : ∀ e ∈ extra, e.item_id = X ∧ e.action = "like") :
    X ∈ validIds extra := by
  cases extra with
  | nil => exact absurd rfl hne
  | cons e t =>
      have he := hextra e (List.mem_cons_self e t)
      unfold validIds
      have hv : (e.item_id != "") = true := by
        rw [he.1]
        exact bne_iff_ne.mpr hX
      rw [List.filter_cons, if_pos hv, List.map_cons, he.1]
      exact List.mem_cons_self X _

lemma validIds_all_like_sub (extra : List CrowdEvent) (X : String)
    (hextra : ∀ e ∈ extra, e.item_id = X ∧ e.action = "like") :
    ∀ i ∈ validIds extra, i = X := by
  intro i hi
  unfold validIds at hi
  simp only [List.mem_map, List.mem_filter] at hi
  obtain ⟨e, ⟨he, _⟩, rfl⟩ := hi
  exact (hextra e he).1

/-- C7: adding more like events for item `X` to the crowd log, holding the
base cosine score (user vector and item vectors) and all other events
constant, does not decrease `X`'s collaborative-blended score in
`recommend_items`. -/
theorem c7_crowd_boost_monotone (base : ℚ) (crowd extra : List CrowdEvent)
    (X : String) (hX : X ≠ "")
    (hextra : ∀ e ∈ extra, e.item_id = X ∧ e.action = "like") :
    recommendScore base crowd false X ≤ recommendScore base (crowd ++ extra) false X := by
  by_cases hne : extra = []
  · subst hne
    rw [List.append_nil]
  -- abbreviations for the two popularity states
  have hLpos : (0 : ℚ) < 2 * extra.length := by
    have : extra.length ≠ 0 := fun h => hne (List.length_eq_zero.mp h)
    have : 0 < extra.length := Nat.pos_of_ne_zero this
    positivity
  have hP' : popCount (crowd ++ extra) X = popCount crowd X + 2 * extra.length := by
    rw [popCount_append, popCount_all_like extra X hX hextra]
  have hXmem' : X ∈ validIds (crowd ++ extra) := by
    rw [validIds_append]
    exact List.mem_append_right _ (mem_validIds_all_like extra X hX hne hextra)
  have hM'pos : (0 : ℚ) < maxPop (crowd ++ extra) :=
    lt_of_lt_of_le one_pos (one_le_maxPop _)
  have hMpos : (0 : ℚ) < maxPop crowd :=
    lt_of_lt_of_le one_pos (one_le_maxPop _)
  have hP0 : 0 ≤ popCount crowd X := popCount_nonneg crowd X
  -- the new maximum is bounded by max(old maximum, new count of X)
  have hM'le : maxPop (crowd ++ extra) ≤
      max (maxPop crowd) (popCount (crowd ++ extra) X) := by
    apply maxPop_le
    · exact le_trans (one_le_maxPop crowd) (le_max_left _ _)
    · intro i hi
      rw [validIds_append, List.mem_append] at hi
      rcases hi with hi | hi
      · by_cases hiX : i = X
        · subst hiX
          exact le_max_right _ _
        · rw [popCount_append, popCount_all_like_other extra X i hiX hextra, add_zero]
          exact le_trans (popCount_le_maxPop crowd i hi) (le_max_left _ _)
      · have := validIds_all_like_sub extra X hextra i hi
        subst this
        exact le_max_right _ _
  have hboost' : crowdBoost (crowd ++ extra) X =
      3 / 20 * (popCount (crowd ++ extra) X / maxPop (crowd ++ extra)) := by
    unfold crowdBoost
    rw [if_pos hXmem']
  have hb'nonneg : 0 ≤ crowdBoost (crowd ++ extra) X := by
    rw [hboost']
    have := popCount_nonneg (crowd ++ extra) X
    positivity
  have happne : crowd ++ extra ≠ [] := by
    intro h
    exact hne (List.append_eq_nil.mp h).2
  have hRHS : recommendScore base (crowd ++ extra) false X =
      base + crowdBoost (crowd ++ extra) X := by
    unfold recommendScore
    rw [if_pos ⟨happne, rfl⟩]
  by_cases hc : crowd = []
  · subst hc
    simp only [List.nil_append] at hRHS hb'nonneg ⊢
    rw [hRHS]
    unfold recommendScore
    rw [if_neg (by simp)]
    linarith
  · have hLHS : recommendScore base crowd false X = base + crowdBoost crowd X := by
      unfold recommendScore
      rw [if_pos ⟨hc, rfl⟩]
    rw [hLHS, hRHS]
    by_cases hXmem : X ∈ validIds crowd
    · have hboost : crowdBoost crowd X = 3 / 20 * (popCount crowd X / maxPop crowd) := by
        unfold crowdBoost
        rw [if_pos hXmem]
      have hPM : popCount crowd X ≤ maxPop crowd := popCount_le_maxPop crowd X hXmem
      have key : popCount crowd X / maxPop crowd ≤
          popCount (crowd ++ extra) X / maxPop (crowd ++ extra) := by
        by_cases hcase : popCount (crowd ++ extra) X ≤ maxPop crowd
        · have hM'M : maxPop (crowd ++ extra) ≤ maxPop crowd := by
            calc maxPop (crowd ++ extra)
                ≤ max (maxPop crowd) (popCount (crowd ++ extra) X) := hM'le
              _ = maxPop crowd := max_eq_left hcase
          calc popCount crowd X / maxPop crowd
              ≤ popCount (crowd ++ extra) X / maxPop crowd := by
                apply div_le_div_of_nonneg_right ?_ hMpos.le
                · rw [hP']
                  linarith
            _ ≤ popCount (crowd ++ extra) X / maxPop (crowd ++ extra) := by
                apply div_le_div_of_nonneg_left ?_ hM'pos hM'M
                rw [hP']
                linarith
        · push_neg at hcase
          have hM'P' : maxPop (crowd ++ extra) ≤ popCount (crowd ++ extra) X := by
            calc maxPop (crowd ++ extra)
                ≤ max (maxPop crowd) (popCount (crowd ++ extra) X) := hM'le
              _ = popCount (crowd ++ extra) X := max_eq_right (le_of_lt hcase)
          calc popCount crowd X / maxPop crowd
              ≤ 1 := (div_le_one hMpos).mpr hPM
            _ ≤ popCount (crowd ++ extra) X / maxPop (crowd ++ extra) :=
                (one_le_div hM'pos).mpr hM'P'
      rw [hboost, hboost']
      have : 3 / 20 * (popCount crowd X / maxPop crowd) ≤
          3 / 20 * (popCount (crowd ++ extra) X / maxPop (crowd ++ extra)) := by
        apply mul_le_mul_of_nonneg_left key
        norm_num
      linarith
    · have hboost : crowdBoost crowd X = 0 := by
        unfold crowdBoost
        rw [if_neg hXmem]
      rw [hboost]
      linarith

/-- Witness for C7: one unrelated crowd event, then one extra like for
item `X`. -/
theorem c7_crowd_boost_monotone_witness :
    recommendScore 0 [ ⟨ "u1", "A", "like" ⟩ ] false "X" ≤
      recommendScore 0 ([ ⟨ "u1", "A", "like" ⟩ ] ++ [ ⟨ "u2", "X", "like" ⟩ ]) false "X" :=
  c7_crowd_boost_monotone 0 [ ⟨ "u1", "A", "like" ⟩ ] [ ⟨ "u2", "X", "like" ⟩ ] "X"
    (by decide) (by decide)

/-- Counterexample to C3: the current user's likes are `{A}`; the only
crowd event is user `u2` liking `Z`, and `u2` shares no item with the
current user, so the crowd log contains no neighbor event at all — yet `Z`'s
blended score gains a strictly positive crowd contribution (`+0.15`),
because `recommend_items` counts every user's events. -/
theorem c3_neighbor_cex :
    (( [ ⟨ "u2", "Z", "like" ⟩ ] : List CrowdEvent).all
        (fun e => !(isNeighbor [ "A" ] [ ⟨ "u2", "Z", "like" ⟩ ] e.user_id)) = true) ∧
      recommendScore 0 [ ⟨ "u2", "Z", "like" ⟩ ] false "Z" ≠ 0 := by
  refine ⟨ by decide, ?_ ⟩
  have hv : validIds [ ⟨ "u2", "Z", "like" ⟩ ] = [ "Z" ] := by decide
  have hp : popCount [ ⟨ "u2", "Z", "like" ⟩ ] "Z" = 2 := by
    simp [popCount, eventWeight]
  have hmax : maxPop [ ⟨ "u2", "Z", "like" ⟩ ] = 2 := by
    unfold maxPop
    rw [hv]
    simp only [List.foldl_cons, List.foldl_nil]
    rw [hp]
    exact max_eq_right (by norm_num)
  have hb : crowdBoost [ ⟨ "u2", "Z", "like" ⟩ ] "Z" = 3 / 20 := by
    unfold crowdBoost
    rw [if_pos (by rw [hv]; exact List.mem_singleton.mpr rfl), hp, hmax]
    norm_num
  have hs : recommendScore 0 [ ⟨ "u2", "Z", "like" ⟩ ] false "Z" = 3 / 20 := by
    unfold recommendScore
    rw [if_pos ⟨ by simp, rfl ⟩, hb]
    norm_num
  rw [hs]
  norm_num

/-- C3 amended: the collaborative contribution of `recommend_items` is zero
exactly for candidate items that appear in no crowd event with a non-empty
item id (regardless of which user produced the events — the code has no
neighbor notion): for such items the blended score equals the base content
score. -/
theorem c3_no_event_zero_contribution (base : ℚ) (crowd : List CrowdEvent)
    (fc : Bool) (X : String) (hX : X ∉ validIds crowd) :
    recommendScore base crowd fc X = base := by
  by_cases h : crowd ≠ [] ∧ fc = false
  · unfold recommendScore
    rw [if_pos h]
    unfold crowdBoost
    rw [if_neg hX]
    ring
  · unfold recommendScore
    rw [if_neg h]

/-- Witness for the amended C3: item `Z` has no crowd event, so its score
is exactly its base score. -/
theorem c3_no_event_zero_contribution_witness :
    recommendScore 1 [ ⟨ "u1", "A", "like" ⟩ ] false "Z" = 1 :=
  c3_no_event_zero_contribution 1 [ ⟨ "u1", "A", "like" ⟩ ] false "Z" (by decide)

/- -------------------- gnn_infer.py : make_user_vector -------------------- -/

/-- Scale a vector by a scalar. -/
def scaleVec (c : ℚ) (v : List ℚ) : List ℚ := v.map (fun x => c * x)

/-- Componentwise vector addition. -/
def addVec (u v : List ℚ) : List ℚ := List.zipWith (fun a b => a + b) u v

/-- The index/weight pairs collected at gnn_infer.py lines 132-141: liked
item ids found in `id_to_idx` with weight `1.0`, then bagged ids with
weight `0.7`; unknown ids are silently dropped. -/
def collectWeighted (liked bagged : List String)
    (idToIdx : String → Option Nat) : List (Nat × ℚ) :=
  liked.filterMap (fun i => (idToIdx i).map (fun j => (j, (1 : ℚ)))) ++
    bagged.filterMap (fun i => (idToIdx i).map (fun j => (j, (7 / 10 : ℚ))))

/-- `V = (E[idxs] * np.array(w)[:, None]).mean(axis=0)` (gnn_infer.py
line 145): the mean of the weight-scaled interacted rows.  `D` is
`E.shape[1]`. -/
def userVectorRaw (pairs : List (Nat × ℚ)) (E : List (List ℚ)) (D : Nat) : List ℚ :=
  scaleVec (1 / (pairs.length : ℚ))
    (pairs.foldl (fun acc p => addVec acc (scaleVec p.2 (E.getD p.1 (List.replicate D 0))))
      (List.replicate D 0))

/-- `make_user_vector` (gnn_infer.py lines 131-147).  `D` is `E.shape[1]`;
`n` stands for the float `np.linalg.norm(V)` of the weighted mean `V`
(line 146), passed explicitly because the square root has no exact rational
value — theorems constrain it by `0 ≤ n` and
`n * n = normSq (userVectorRaw ...)`.  The empty-interaction branch
(lines 142-144) returns `np.ones(D) * (1.0 / D)` and never reaches the
normalization. -/
def make_user_vector (liked bagged : List String) (idToIdx : String → Option Nat)
    (E : List (List ℚ)) (D : Nat) (n : ℚ) : List ℚ :=
  if collectWeighted liked bagged idToIdx = [] then
    List.replicate D (1 / (D : ℚ))
  else
    (userVectorRaw (collectWeighted liked bagged idToIdx) E D).map
      (fun v => v / (n + 1 / 10 ^ 8))

/-- Modelled from the spec's words for claim C1 only: "the catalog-wide
mean vector — the mean of all item vectors", i.e. `E.mean(axis=0)`.  This
is what the spec says the cold-start branch returns; the source is compared
against it. -/
def specCatalogMean (E : List (List ℚ)) (D : Nat) : List ℚ :=
  scaleVec (1 / (E.length : ℚ)) (E.foldl addVec (List.replicate D 0))

lemma normSq_replicate (D : Nat) (c : ℚ) :
    normSq (List.replicate D c) = D * (c * c) := by
  induction D with
  | zero => simp [normSq]
  | succ d ih =>
      rw [List.replicate_succ]
      unfold normSq at ih ⊢
      simp only [List.map_cons, List.sum_cons]
      rw [ih]
      push_cast
      ring

/-- Counterexample to C1: for a two-item catalog whose vectors are both
`[1, 0]`, the catalog-wide mean is `[1, 0]`, but `make_user_vector` with an
empty filtered interaction set returns the constant vector `[1/2, 1/2]`
(`np.ones(D) * (1/D)`), which is not the catalog mean. -/
theorem c1_cold_mean_cex :
    make_user_vector [] [] (fun _ => none) [ [ 1, 0 ], [ 1, 0 ] ] 2 0 =
        [ 1 / 2, 1 / 2 ] ∧
      specCatalogMean [ [ 1, 0 ], [ 1, 0 ] ] 2 = [ 1, 0 ] ∧
      ([ (1 : ℚ) / 2, 1 / 2 ] : List ℚ) ≠ [ 1, 0 ] := by
  refine ⟨ ?_, ?_, by norm_num ⟩
  · have hempty : collectWeighted [] [] (fun _ => none) = [] := rfl
    unfold make_user_vector
    rw [if_pos hempty]
    norm_num [List.replicate]
  · norm_num [specCatalogMean, scaleVec, addVec, List.replicate]

/-- C1 amended: for every user whose filtered interaction set is empty,
`make_user_vector` returns the constant vector with every component equal
to `1/D` (`D` the embedding dimension), which has non-zero norm — it is not
the catalog-wide mean vector. -/
theorem c1_cold_uniform (liked bagged : List String) (idToIdx : String → Option Nat)
    (E : List (List ℚ)) (D : Nat) (n : ℚ)
    (hempty : collectWeighted liked bagged idToIdx = []) (hD : 0 < D) :
    make_user_vector liked bagged idToIdx E D n = List.replicate D (1 / (D : ℚ)) ∧
      normSq (make_user_vector liked bagged idToIdx E D n) ≠ 0 := by
  have h1 : make_user_vector liked bagged idToIdx E D n =
      List.replicate D (1 / (D : ℚ)) := by
    unfold make_user_vector
    rw [if_pos hempty]
  refine ⟨h1, ?_⟩
  rw [h1, normSq_replicate]
  have hD' : (0 : ℚ) < (D : ℚ) := by exact_mod_cast hD
  have : (0 : ℚ) < (D : ℚ) * (1 / (D : ℚ) * (1 / (D : ℚ))) := by positivity
  exact ne_of_gt this

/-- Witness for the amended C1: a liked id unknown to the item index is
dropped, the filtered set is empty, and the uniform `1/D` vector with
non-zero norm is returned. -/
theorem c1_cold_uniform_witness :
    make_user_vector [ "x" ] [] (fun _ => none) [ [ 1, 2 ] ] 2 0 =
        List.replicate 2 (1 / ((2 : Nat) : ℚ)) ∧
      normSq (make_user_vector [ "x" ] [] (fun _ => none) [ [ 1, 2 ] ] 2 0) ≠ 0 :=
  c1_cold_uniform [ "x" ] [] (fun _ => none) [ [ 1, 2 ] ] 2 0 rfl (by norm_num)

/-- Counterexample to C4: user likes the single item `"a"` whose vector is
`[3, 4]`; the raw weighted mean is `[3, 4]` with norm exactly 5, but
`make_user_vector` divides by `5 + 1e-8` before returning, so the returned
vector's squared norm is `25 / (5 + 1e-8)^2 ≈ 1`, not the raw mean's 25 —
the profile vector IS pre-normalized. -/
theorem c4_prenormalized_cex :
    (0 : ℚ) ≤ 5 ∧
      5 * 5 = normSq (userVectorRaw
        (collectWeighted [ "a" ] [] (fun s => if s = "a" then some 0 else none))
        [ [ 3, 4 ] ] 2) ∧
      normSq (make_user_vector [ "a" ] []
          (fun s => if s = "a" then some 0 else none) [ [ 3, 4 ] ] 2 5) ≠
        normSq (userVectorRaw
          (collectWeighted [ "a" ] [] (fun s => if s = "a" then some 0 else none))
          [ [ 3, 4 ] ] 2) := by
  have hcollect : collectWeighted [ "a" ] [] (fun s => if s = "a" then some 0 else none) =
      [ (0, 1) ] := by
    simp [collectWeighted]
  have hraw : userVectorRaw [ ((0 : Nat), (1 : ℚ)) ] [ [ 3, 4 ] ] 2 = [ 3, 4 ] := by
    norm_num [userVectorRaw, scaleVec, addVec, List.getD, List.replicate]
  have h25 : normSq [ (3 : ℚ), 4 ] = 25 := by
    norm_num [normSq]
  refine ⟨ by norm_num, ?_, ?_ ⟩
  · rw [hcollect, hraw, h25]
    norm_num
  · rw [hcollect, hraw, h25]
    have hm : make_user_vector [ "a" ] []
        (fun s => if s = "a" then some 0 else none) [ [ 3, 4 ] ] 2 5 =
        (userVectorRaw [ ((0 : Nat), (1 : ℚ)) ] [ [ 3, 4 ] ] 2).map
          (fun v => v / (5 + 1 / 10 ^ 8)) := by
      unfold make_user_vector
      rw [hcollect]
      rw [if_neg (by simp)]
    rw [hm, hraw]
    norm_num [normSq]

/-- C4 amended: for every user with at least one qualifying interaction,
the profile vector is the mean of the weight-scaled interacted rows (weight
1.0 for like, 0.7 for bag, both contributing without deduplication) divided
by (its L2 norm + 1e-8): it IS normalized inside `make_user_vector`.  Its
squared norm satisfies `normSq(out) * (n + 1e-8)^2 = normSq(raw)` — so the
output norm is `n / (n + 1e-8)`, at most 1, not the raw weighted mean's
norm `n`. -/
theorem c4_normalized (liked bagged : List String) (idToIdx : String → Option Nat)
    (E : List (List ℚ)) (D : Nat) (n : ℚ)
    (hne : collectWeighted liked bagged idToIdx ≠ []) (hn : 0 ≤ n)
    (hsq : n * n = normSq (userVectorRaw (collectWeighted liked bagged idToIdx) E D)) :
    normSq (make_user_vector liked bagged idToIdx E D n) * (n + 1 / 10 ^ 8) ^ 2 =
        normSq (userVectorRaw (collectWeighted liked bagged idToIdx) E D) ∧
      normSq (make_user_vector liked bagged idToIdx E D n) ≤ 1 := by
  have hm : make_user_vector liked bagged idToIdx E D n =
      (userVectorRaw (collectWeighted liked bagged idToIdx) E D).map
        (fun v => v / (n + 1 / 10 ^ 8)) := by
    unfold make_user_vector
    rw [if_neg hne]
  constructor
  · rw [hm, normSq_map_div]
    have hden : (0 : ℚ) < n + 1 / 10 ^ 8 := by
      have : (0 : ℚ) < 1 / 10 ^ 8 := by norm_num
      linarith
    have hden2 : (n + 1 / 10 ^ 8) * (n + 1 / 10 ^ 8) ≠ 0 :=
      ne_of_gt (mul_pos hden hden)
    rw [pow_two]
    exact div_mul_cancel₀ _ hden2
  · rw [hm]
    exact normSq_div_le_one _ n (1 / 10 ^ 8) hn (by norm_num) hsq

/-- Witness for the amended C4 at the single-like input with raw mean
`[3, 4]` and norm 5. -/
theorem c4_normalized_witness :
    normSq (make_user_vector [ "a" ] []
          (fun s => if s = "a" then some 0 else none) [ [ 3, 4 ] ] 2 5) *
        (5 + 1 / 10 ^ 8) ^ 2 =
      normSq (userVectorRaw
        (collectWeighted [ "a" ] [] (fun s => if s = "a" then some 0 else none))
        [ [ 3, 4 ] ] 2) ∧
      normSq (make_user_vector [ "a" ] []
        (fun s => if s = "a" then some 0 else none) [ [ 3, 4 ] ] 2 5) ≤ 1 :=
  c4_normalized [ "a" ] [] (fun s => if s = "a" then some 0 else none)
    [ [ 3, 4 ] ] 2 5 (by simp [collectWeighted])
    (by norm_num)
    (by
      rw [show (collectWeighted [ "a" ] [] (fun s => if s = "a" then some 0 else none)) =
        [ ((0 : Nat), (1 : ℚ)) ] from by simp [collectWeighted]]
      norm_num [userVectorRaw, scaleVec, addVec, normSq, List.getD, List.replicate])

/- ------------- gnn_infer.py : load_item_embeddings, artifact branch ------------- -/

/-- How `load_item_embeddings` obtained its embeddings: from the artifact
files, or derived on the fly. -/
inductive EmbSource where
  | loaded : EmbSource
  | derived : EmbSource
deriving DecidableEq

/-- The artifact branch of `load_item_embeddings` (gnn_infer.py
lines 91-97): when `embs.npy` and `A.npy` both exist (`artifactRows` is the
row count of the stored matrix), the stored matrix is used only if its row
count equals the catalog size `N`, otherwise `ValueError` is raised
(modelled as `Except.error` with the exception message); when the artifact
is absent, embeddings are derived on the fly and no error is possible. -/
def loadEmbeddingsResult (artifactRows : Option Nat) (N : Nat) : Except String EmbSource :=
  match artifactRows with
  | some rows =>
      if rows ≠ N then Except.error "embs.npy count mismatch with items.csv"
      else Except.ok EmbSource.loaded
  | none => Except.ok EmbSource.derived

/-- C2 evidence: with a stored embedding matrix of 5 rows and a current
catalog of 12 items, `load_item_embeddings` raises
`ValueError("embs.npy count mismatch with items.csv")` instead of silently
falling back to on-the-fly derivation.  The in-code comment directly above
the raise ("regenerate to keep shapes consistent") and the spec both
describe a silent fallback, so the raise is a code bug. -/
theorem c2_mismatch_raises :
    loadEmbeddingsResult (some 5) 12 =
      Except.error "embs.npy count mismatch with items.csv" := rfl

/- ------------- gnn_infer.py : load_item_embeddings, filesystem effects ------------- -/

/-- The fragment of the filesystem that `load_item_embeddings` can touch:
presence flags for the three artifact files it reads/writes, plus the
remaining paths (`other`), which it never touches. -/
structure ArtifactFS where
  itemsCsv : Bool
  embsNpy : Bool
  aNpy : Bool
  other : List String
deriving DecidableEq

/-- The filesystem effect of `load_item_embeddings` (gnn_infer.py
lines 73-118).  `itemsGiven` is whether the caller passed a catalog
(`items is not None`).  Line 83/86 writes `items.csv` whenever a catalog is
passed, or when none is passed and the file is missing; lines 117-118 write
`embs.npy` and `A.npy` whenever they are not both present ( `mkdir` of the
artifacts directory is a directory effect, not a file).  In the
both-present branch nothing further is written (even when the row-count
check raises, the `items.csv` write has already happened). -/
def load_item_embeddings_fs (itemsGiven : Bool) (fs : ArtifactFS) : ArtifactFS :=
  let fs1 := if itemsGiven then { fs with itemsCsv := true }
             else if fs.itemsCsv then fs else { fs with itemsCsv := true }
  if fs1.embsNpy && fs1.aNpy then fs1
  else { fs1 with embsNpy := true, aNpy := true }

/-- Counterexample to C6: loading item vectors on an empty artifacts
directory with a caller-supplied catalog changes the filesystem — it
creates `items.csv`, `embs.npy` and `A.npy`. -/
theorem c6_writes_files_cex :
    load_item_embeddings_fs true ⟨ false, false, false, [] ⟩ ≠
      ⟨ false, false, false, [] ⟩ := by decide

/-- C6 amended: `make_user_vector`, scoring and ranking are pure functions
of their arguments (they are modelled here as plain functions with no
filesystem argument), but `load_item_embeddings` does write files.  Its
effects are confined to the three artifact files (`items.csv`, `embs.npy`,
`A.npy`): every other path is untouched, and when no catalog is passed and
all three artifacts already exist it leaves the filesystem unchanged. -/
theorem c6_fs_effects (itemsGiven : Bool) (fs : ArtifactFS) :
    (load_item_embeddings_fs itemsGiven fs).other = fs.other ∧
      (itemsGiven = false → fs.itemsCsv = true → fs.embsNpy = true →
        fs.aNpy = true → load_item_embeddings_fs itemsGiven fs = fs) := by
  constructor
  · obtain ⟨i, e, a, o⟩ := fs
    cases itemsGiven <;> cases i <;> cases e <;> cases a <;> rfl
  · intro hg h1 h2 h3
    subst hg
    unfold load_item_embeddings_fs
    simp [h1, h2, h3]

/-- Witness for the amended C6: with all artifacts present and no catalog
passed, nothing on the filesystem changes. -/
theorem c6_fs_effects_witness :
    (load_item_embeddings_fs false ⟨ true, true, true, [ "app.py" ] ⟩).other =
        [ "app.py" ] ∧
      (false = false → true = true → true = true → true = true →
        load_item_embeddings_fs false ⟨ true, true, true, [ "app.py" ] ⟩ =
          ⟨ true, true, true, [ "app.py" ] ⟩) :=
  c6_fs_effects false ⟨ true, true, true, [ "app.py" ] ⟩

/- -------------------- gnn_infer.py : cold_start_mmr -------------------- -/

/-- `int(np.argmax(f over 0..N-1))`: the first index attaining the maximum
(the fold keeps the incumbent on ties, matching NumPy's first-occurrence
rule). -/
def argmaxFirst (f : Nat → ℚ) (N : Nat) : Nat :=
  (List.range N).foldl (fun b i => if f i > f b then i else b) 0

/-- One selection of the greedy loop (gnn_infer.py lines 204-212):
`best_i = cand[0]`, `best_score = -1e9`, then a scan over `cand` updating
only on strict improvement — ties keep the first-encountered index. -/
def selectBest (score : Nat → ℚ) (cand : List Nat) : Nat :=
  (cand.foldl (fun acc i => if score i > acc.2 then (i, score i) else acc)
    (cand.headD 0, -(10 ^ 9 : ℚ))).1

/-- `max(E[i] @ E[j] for j in picked)`, `0.0` when nothing is picked yet
(gnn_infer.py line 208). -/
def maxSimTo (sim : Nat → Nat → ℚ) (picked : List Nat) (i : Nat) : ℚ :=
  match picked with
  | [] => 0
  | j :: rest => rest.foldl (fun m j2 => max m (sim i j2)) (sim i j)

/-- The MMR objective `lambda_ * rel - (1 - lambda_) * div` with
`lambda_ = 0.65` (gnn_infer.py line 209). -/
def mmrScore (simToRef : Nat → ℚ) (sim : Nat → Nat → ℚ) (picked : List Nat)
    (i : Nat) : ℚ :=
  13 / 20 * simToRef i - 7 / 20 * maxSimTo sim picked i

/-- The `while len(picked) < k and cand:` loop (gnn_infer.py
lines 203-214); `fuel` is `k - len(picked)`, which decreases by one per
iteration, and each iteration appends the selected index to `picked` and
removes it from `cand`. -/
def mmrLoop (simToRef : Nat → ℚ) (sim : Nat → Nat → ℚ) :
    Nat → List Nat → List Nat → List Nat
  | 0, picked, _ => picked
  | _ + 1, picked, [] => picked
  | fuel + 1, picked, c0 :: rest =>
      mmrLoop simToRef sim fuel
        (picked ++ [selectBest (mmrScore simToRef sim picked) (c0 :: rest)])
        ((c0 :: rest).erase (selectBest (mmrScore simToRef sim picked) (c0 :: rest)))

/-- `cold_start_mmr` (gnn_infer.py lines 184-216).  The float similarity
inputs are abstracted as parameters because `ref` is normalized with a
square-root norm: `simToRef i` stands for `sim_to_ref[i] = (E @ ref)[i]`
(line 198) and `sim i j` for `E[i] @ E[j]`; the properties proved below
hold for every value of these parameters, hence in particular for the
source's values.  When `len(items) <= k` the whole id column is returned;
otherwise the first pick is the argmax of `sim_to_ref` and the greedy loop
runs on the remaining candidates. -/
def cold_start_mmr (ids : List String) (simToRef : Nat → ℚ)
    (sim : Nat → Nat → ℚ) (k : Nat) : List String :=
  if ids.length ≤ k then ids
  else
    (mmrLoop simToRef sim (k - 1) [argmaxFirst simToRef ids.length]
        ((List.range ids.length).erase (argmaxFirst simToRef ids.length))).map
      (fun i => ids.getD i "")

lemma foldl_select_mem (score : Nat → ℚ) (l : List Nat) (acc : Nat × ℚ) :
    (l.foldl (fun acc i => if score i > acc.2 then (i, score i) else acc) acc).1 = acc.1 ∨
      (l.foldl (fun acc i => if score i > acc.2 then (i, score i) else acc) acc).1 ∈ l := by
  induction l generalizing acc with
  | nil => left; rfl
  | cons b t ih =>
      simp only [List.foldl_cons]
      rcases ih (if score b > acc.2 then (b, score b) else acc) with h | h
      · by_cases hb : score b > acc.2
        · right
          rw [h, if_pos hb]
          exact List.mem_cons_self b t
        · left
          rw [h, if_neg hb]
      · right
        exact List.mem_cons_of_mem b h

lemma selectBest_mem (score : Nat → ℚ) (cand : List Nat) (h : cand ≠ []) :
    selectBest score cand ∈ cand := by
  cases cand with
  | nil => exact absurd rfl h
  | cons c0 rest =>
      unfold selectBest
      rcases foldl_select_mem score (c0 :: rest) ((c0 :: rest).headD 0, -(10 ^ 9 : ℚ)) with
        h1 | h1
      · rw [h1]
        simp only [List.headD_cons]
        exact List.mem_cons_self c0 rest
      · exact h1

lemma mmrLoop_length (simToRef : Nat → ℚ) (sim : Nat → Nat → ℚ) (fuel : Nat) :
    ∀ picked cand,
      (mmrLoop simToRef sim fuel picked cand).length ≤ picked.length + fuel := by
  induction fuel with
  | zero =>
      intro picked cand
      simp [mmrLoop]
  | succ f ih =>
      intro picked cand
      cases cand with
      | nil =>
          simp only [mmrLoop]
          omega
      | cons c0 rest =>
          have step : mmrLoop simToRef sim (f + 1) picked (c0 :: rest) =
              mmrLoop simToRef sim f
                (picked ++ [selectBest (mmrScore simToRef sim picked) (c0 :: rest)])
                ((c0 :: rest).erase
                  (selectBest (mmrScore simToRef sim picked) (c0 :: rest))) := rfl
          rw [step]
          have := ih (picked ++ [selectBest (mmrScore simToRef sim picked) (c0 :: rest)])
            ((c0 :: rest).erase (selectBest (mmrScore simToRef sim picked) (c0 :: rest)))
          simp only [List.length_append, List.length_cons, List.length_nil] at this
          omega

lemma mmrLoop_invariant (simToRef : Nat → ℚ) (sim : Nat → Nat → ℚ) (fuel : Nat) :
    ∀ picked cand, picked.Nodup → cand.Nodup → (∀ c ∈ cand, c ∉ picked) →
      (mmrLoop simToRef sim fuel picked cand).Nodup ∧
        ∀ x ∈ mmrLoop simToRef sim fuel picked cand, x ∈ picked ∨ x ∈ cand := by
  induction fuel with
  | zero =>
      intro picked cand hp _ _
      exact ⟨hp, fun x hx => Or.inl hx⟩
  | succ f ih =>
      intro picked cand hp hc hd
      cases cand with
      | nil => exact ⟨hp, fun x hx => Or.inl hx⟩
      | cons c0 rest =>
          have hbmem : selectBest (mmrScore simToRef sim picked) (c0 :: rest) ∈ c0 :: rest :=
            selectBest_mem _ _ (by simp)
          have hbnot : selectBest (mmrScore simToRef sim picked) (c0 :: rest) ∉ picked :=
            hd _ hbmem
          have hp' : (picked ++
              [selectBest (mmrScore simToRef sim picked) (c0 :: rest)]).Nodup := by
            rw [List.nodup_append]
            refine ⟨hp, List.nodup_singleton _, ?_⟩
            intro a ha hmem
            rw [List.mem_singleton] at hmem
            subst hmem
            exact hbnot ha
          have hc' : ((c0 :: rest).erase
              (selectBest (mmrScore simToRef sim picked) (c0 :: rest))).Nodup :=
            hc.erase _
          have hd' : ∀ c ∈ (c0 :: rest).erase
              (selectBest (mmrScore simToRef sim picked) (c0 :: rest)),
              c ∉ picked ++ [selectBest (mmrScore simToRef sim picked) (c0 :: rest)] := by
            intro c hcm hmem
            have h1 : c ∈ c0 :: rest := List.mem_of_mem_erase hcm
            have h2 : c ≠ selectBest (mmrScore simToRef sim picked) (c0 :: rest) :=
              ((hc.mem_erase_iff).mp hcm).1
            rcases List.mem_append.mp hmem with h | h
            · exact hd c h1 h
            · exact h2 (List.mem_singleton.mp h)
          have hrec := ih _ _ hp' hc' hd'
          have step : mmrLoop simToRef sim (f + 1) picked (c0 :: rest) =
              mmrLoop simToRef sim f
                (picked ++ [selectBest (mmrScore simToRef sim picked) (c0 :: rest)])
                ((c0 :: rest).erase
                  (selectBest (mmrScore simToRef sim picked) (c0 :: rest))) := rfl
          rw [step]
          refine ⟨hrec.1, ?_⟩
          intro x hx
          rcases hrec.2 x hx with h | h
          · rcases List.mem_append.mp h with h' | h'
            · exact Or.inl h'
            · right
              rw [List.mem_singleton.mp h']
              exact hbmem
          · exact Or.inr (List.mem_of_mem_erase h)

lemma foldl_argmax_bound (f : Nat → ℚ) (N : Nat) :
    ∀ (l : List Nat) (b : Nat), b < N → (∀ i ∈ l, i < N) →
      l.foldl (fun b i => if f i > f b then i else b) b < N := by
  intro l
  induction l with
  | nil => intro b hb _; simpa using hb
  | cons a t ih =>
      intro b hb hl
      simp only [List.foldl_cons]
      apply ih
      · by_cases h : f a > f b
        · rw [if_pos h]; exact hl a (List.mem_cons_self a t)
        · rw [if_neg h]; exact hb
      · intro i hi
        exact hl i (List.mem_cons_of_mem a hi)

lemma argmaxFirst_lt (f : Nat → ℚ) (N : Nat) (hN : 0 < N) : argmaxFirst f N < N := by
  unfold argmaxFirst
  apply foldl_argmax_bound f N (List.range N) 0 hN
  intro i hi
  exact List.mem_range.mp hi

lemma map_getD_nodup (ids : List String) (hids : ids.Nodup) :
    ∀ (l : List Nat), l.Nodup → (∀ i ∈ l, i < ids.length) →
      (l.map (fun i => ids.getD i "")).Nodup := by
  intro l
  induction l with
  | nil => intro _ _; simp
  | cons i t ih =>
      intro hn hb
      have hni := List.nodup_cons.mp hn
      simp only [List.map_cons, List.nodup_cons]
      constructor
      · intro hmem
        simp only [List.mem_map] at hmem
        obtain ⟨j, hj, hEq⟩ := hmem
        have hij : j ≠ i := fun h => hni.1 (h ▸ hj)
        have hi : i < ids.length := hb i (List.mem_cons_self i t)
        have hjlt : j < ids.length := hb j (List.mem_cons_of_mem i hj)
        have e1 : ids.getD i "" = ids[i] := by
          simp [List.getD_eq_getElem?_getD, List.getElem?_eq_getElem hi]
        have e2 : ids.getD j "" = ids[j] := by
          simp [List.getD_eq_getElem?_getD, List.getElem?_eq_getElem hjlt]
        rw [e1, e2] at hEq
        exact hij ((hids.getElem_inj_iff).mp hEq)
      · exact ih hni.2 (fun j hj => hb j (List.mem_cons_of_mem i hj))

/-- Counterexample to C8: with a one-item catalog and `k = 0`, the loop
guard `len(picked) < k` is only checked after the first pick, so
`cold_start_mmr` returns one item id — more than `k`. -/
theorem c8_k_zero_cex :
    cold_start_mmr [ "a" ] (fun _ => 0) (fun _ _ => 0) 0 = [ "a" ] ∧
      ¬ ((cold_start_mmr [ "a" ] (fun _ => 0) (fun _ _ => 0) 0).length ≤ 0) := by
  have ha : argmaxFirst (fun _ => (0 : ℚ)) ([ "a" ] : List String).length = 0 := by
    unfold argmaxFirst
    simp [List.range_succ]
  have hmain : cold_start_mmr [ "a" ] (fun _ => 0) (fun _ _ => 0) 0 = [ "a" ] := by
    unfold cold_start_mmr
    rw [if_neg (by norm_num)]
    rw [ha]
    simp [mmrLoop, List.getD]
  exact ⟨hmain, by rw [hmain]; norm_num⟩

/-- C8 amended: for every catalog with distinct item ids (the data model's
uniqueness invariant), every pair of similarity inputs and every `k ≥ 1`,
`cold_start_mmr` returns at most `k` item ids with no duplicates, and when
the catalog has at most `k` items it returns all item ids; determinism and
first-encountered tie-breaking are inherent in the embedding (a pure
function whose selection folds update only on strict improvement). -/
theorem c8_mmr_guarantees (ids : List String) (simToRef : Nat → ℚ)
    (sim : Nat → Nat → ℚ) (k : Nat) (hids : ids.Nodup) (hk : 1 ≤ k) :
    (cold_start_mmr ids simToRef sim k).length ≤ k ∧
      (cold_start_mmr ids simToRef sim k).Nodup ∧
      (ids.length ≤ k → cold_start_mmr ids simToRef sim k = ids) := by
  by_cases hsmall : ids.length ≤ k
  · unfold cold_start_mmr
    rw [if_pos hsmall]
    exact ⟨hsmall, hids, fun _ => rfl⟩
  · unfold cold_start_mmr
    rw [if_neg hsmall]
    push_neg at hsmall
    have hN : 0 < ids.length := lt_of_le_of_lt (Nat.zero_le k) hsmall
    have hflt : argmaxFirst simToRef ids.length < ids.length :=
      argmaxFirst_lt _ _ hN
    have hcn : ((List.range ids.length).erase (argmaxFirst simToRef ids.length)).Nodup :=
      (List.nodup_range _).erase _
    have hdisj : ∀ c ∈ (List.range ids.length).erase (argmaxFirst simToRef ids.length),
        c ∉ [argmaxFirst simToRef ids.length] := by
      intro c hcm hmem
      have h2 : c ≠ argmaxFirst simToRef ids.length :=
        (((List.nodup_range _).mem_erase_iff).mp hcm).1
      exact h2 (List.mem_singleton.mp hmem)
    have hinv := mmrLoop_invariant simToRef sim (k - 1)
      [argmaxFirst simToRef ids.length]
      ((List.range ids.length).erase (argmaxFirst simToRef ids.length))
      (List.nodup_singleton _) hcn hdisj
    have hlen := mmrLoop_length simToRef sim (k - 1)
      [argmaxFirst simToRef ids.length]
      ((List.range ids.length).erase (argmaxFirst simToRef ids.length))
    have hbound : ∀ x ∈ mmrLoop simToRef sim (k - 1)
        [argmaxFirst simToRef ids.length]
        ((List.range ids.length).erase (argmaxFirst simToRef ids.length)),
        x < ids.length := by
      intro x hx
      rcases hinv.2 x hx with h | h
      · rw [List.mem_singleton.mp h]
        exact hflt
      · exact List.mem_range.mp (List.mem_of_mem_erase h)
    refine ⟨?_, ?_, ?_⟩
    · rw [List.length_map]
      have h1 : ([argmaxFirst simToRef ids.length] : List Nat).length = 1 := rfl
      rw [h1] at hlen
      omega
    · exact map_getD_nodup ids hids _ hinv.1 hbound
    · intro h
      exact absurd h hsmall.not_le

/-- Witness for the amended C8 on a two-item catalog with `k = 1`. -/
theorem c8_mmr_guarantees_witness :
    (cold_start_mmr [ "a", "b" ] (fun _ => 0) (fun _ _ => 0) 1).length ≤ 1 ∧
      (cold_start_mmr [ "a", "b" ] (fun _ => 0) (fun _ _ => 0) 1).Nodup ∧
      (([ "a", "b" ] : List String).length ≤ 1 →
        cold_start_mmr [ "a", "b" ] (fun _ => 0) (fun _ _ => 0) 1 = [ "a", "b" ]) :=
  c8_mmr_guarantees [ "a", "b" ] (fun _ => 0) (fun _ _ => 0) 1 (by decide) (by decide)

end RecSys
